import Mathlib

/-!
A verification development for the MTS-ESP client library core
(tuning-table store, MTS SysEx decoder, resolution engine).

Only the public C header is present in the repository snapshot; the
implementation behind it is modelled here from the specification.
Frequencies are represented throughout by their pitch in semitones: a
pitch value p stands for the frequency 440 * 2 ^ ((p - 69) / 12) Hz,
which is a strictly monotone bijection between pitches and positive
frequencies, so distances in pitch are exactly log-frequency distances
and equality of pitches is exactly equality of frequencies.
-/

set_option maxRecDepth 200000

namespace MTS

/-- Modelled from the spec: a `NoteEntry` is `Mapped{frequencyHz}` or
`Unmapped`; the frequency is represented by its pitch in semitones
(frequency = 440 * 2 ^ ((pitch - 69) / 12) Hz). -/
inductive NoteEntry where
  | mapped (pitch : ℚ)
  | unmapped
deriving DecidableEq, Repr

/-- Modelled from the spec: decode errors `TooShort`, `UnrecognizedShape`,
`ChecksumMismatch`, `MalformedField`; all non-fatal. -/
inductive DecodeError where
  | tooShort
  | unrecognizedShape
  | checksumMismatch
  | malformedField
deriving DecidableEq, Repr

/-- Modelled from the spec: a decoded tuning-update event — whole-table
replace (with scale name), partial note replace, or octave-offset replace
(offsets in cents). -/
inductive TuningUpdateEvent where
  | replaceWhole (name : List ℕ) (table : List NoteEntry)
  | replaceNotes (updates : List (ℕ × NoteEntry))
  | octaveOffsets (offsetsCents : List ℚ)
deriving DecidableEq, Repr

/-- The entry of a table at a note index; indices outside the table read
as `unmapped`. -/
def entryAt (t : List NoteEntry) (n : ℕ) : NoteEntry :=
  (t[n]?).getD .unmapped

/-- Modelled from the spec: the checksum is the XOR of the payload bytes
with the high bit cleared. -/
def xor7 (l : List ℕ) : ℕ :=
  (l.foldl (fun a b => a ^^^ b) 0) % 128

/-- Modelled from the spec: a 3-byte pitch field holds the integer
semitone in the first byte and a 14-bit semitone fraction in the lower
two bytes; the reserved all-0x7F field encodes an unmapped note. -/
def decodeEntry (a b c : ℕ) : NoteEntry :=
  if a = 127 ∧ b = 127 ∧ c = 127 then .unmapped
  else .mapped ((a : ℚ) + ((b * 128 + c : ℕ) : ℚ) / 16384)

/-- Decode a run of 3-byte pitch fields into note entries. -/
def decodeTableAux : List ℕ → List NoteEntry
  | a :: b :: c :: t => decodeEntry a b c :: decodeTableAux t
  | _ => []

/-- Decode a run of (note, 3-byte pitch field) groups. -/
def decodePairsAux : List ℕ → List (ℕ × NoteEntry)
  | k :: a :: b :: c :: t => (k, decodeEntry a b c) :: decodePairsAux t
  | _ => []

/-- Modelled from the spec: the Bulk Dump body after the sub-ID —
program id, 16 name bytes, 128 3-byte pitch fields, then the trailing
checksum byte, which must equal the XOR (high bit cleared) of every
byte between the SysEx start byte and the checksum. -/
def decodeBulk (ext dev : ℕ) (brest : List ℕ) : Except DecodeError TuningUpdateEvent :=
  if brest.length < 402 then .error .tooShort
  else if brest.length ≠ 402 then .error .malformedField
  else
    let chk := (brest.getLast?).getD 0
    let pay := ext :: dev :: 8 :: 1 :: brest.dropLast
    if xor7 pay ≠ chk then .error .checksumMismatch
    else .ok (.replaceWhole ((brest.drop 1).take 16)
      (decodeTableAux ((brest.drop 17).take 384)))

/-- Modelled from the spec: Single Note Change — program id, a count,
then that many (note, 3-byte pitch) groups; a count not matching the
entries present rejects the whole message. -/
def decodeSingle (srest : List ℕ) : Except DecodeError TuningUpdateEvent :=
  match srest with
  | _prog :: ll :: es =>
    if es.length = 4 * ll then .ok (.replaceNotes (decodePairsAux es))
    else .error .malformedField
  | _ => .error .tooShort

/-- Clamp helper for the 1-byte octave form: byte 0x40 is zero cents,
values clamp into [-64, 63] cents. -/
def oct1Cents (b : ℕ) : ℚ :=
  (max (-64) (min 63 ((b : ℤ) - 64)) : ℤ)

/-- Modelled from the spec: Scale/Octave Tuning, 1-byte form — 12 signed
bytes of offsets, out-of-range values clamped, never rejected. -/
def decodeOct1 (orest : List ℕ) : Except DecodeError TuningUpdateEvent :=
  if orest.length < 12 then .error .tooShort
  else if orest.length ≠ 12 then .error .malformedField
  else .ok (.octaveOffsets (orest.map oct1Cents))

/-- Clamp helper for the 2-byte octave form: 0x2000 is zero cents, full
scale is ±100 cents, clamped into [-100, 100]. -/
def oct2Cents (v : ℕ) : ℚ :=
  max (-100) (min 100 (((v : ℚ) - 8192) * 100 / 8192))

/-- Pair up 2-byte fields of the 2-byte octave form. -/
def oct2Aux : List ℕ → List ℚ
  | a :: b :: t => oct2Cents (a * 128 + b) :: oct2Aux t
  | _ => []

/-- Modelled from the spec: Scale/Octave Tuning, 2-byte form — 12 2-byte
offset fields, same clamp policy as the 1-byte form. -/
def decodeOct2 (orest : List ℕ) : Except DecodeError TuningUpdateEvent :=
  if orest.length < 24 then .error .tooShort
  else if orest.length ≠ 24 then .error .malformedField
  else .ok (.octaveOffsets (oct2Aux orest))

/-- Dispatch on the header bytes of the message body (the bytes between
the SysEx framing bytes): universal realtime or non-realtime id, device
id, MIDI Tuning sub-ID 0x08, then the shape sub-ID selecting Bulk Dump,
Single Note Change, or the 1-byte or 2-byte Scale/Octave Tuning forms. -/
def dispatchBody : List ℕ → Except DecodeError TuningUpdateEvent
  | ext :: dev :: idTT :: sub :: rest =>
    if idTT ≠ 8 then .error .unrecognizedShape
    else if ext ≠ 126 ∧ ext ≠ 127 then .error .unrecognizedShape
    else if sub = 1 then decodeBulk ext dev rest
    else if sub = 2 then decodeSingle rest
    else if sub = 8 then decodeOct1 rest
    else if sub = 9 then decodeOct2 rest
    else .error .unrecognizedShape
  | _ => .error .unrecognizedShape

/-- Modelled from the spec: the SysEx decoder. A message is framed by
the SysEx start and end bytes 0xF0 and 0xF7 and carries only 7-bit data
bytes in between; the body is dispatched on its header bytes. Anything
else is rejected with a tagged decode error; decoding never mutates
state. -/
def decode (m : List ℕ) : Except DecodeError TuningUpdateEvent :=
  if m.length < 6 then .error .tooShort
  else if m.head? ≠ some 240 then .error .unrecognizedShape
  else if m.getLast? ≠ some 247 then .error .unrecognizedShape
  else
    let body := (m.drop 1).dropLast
    if body.any (fun b => 128 ≤ b) then .error .malformedField
    else dispatchBody body

/-- Modelled from the spec: a `ClientSession` owns one `ChannelSet`
(a default table plus 16 per-channel slots, an unpopulated slot reading
as the default table) and one `ScaleName`. -/
structure Session where
  defaultTable : List NoteEntry
  channelTables : Fin 16 → Option (List NoteEntry)
  scaleName : List ℕ

/-- The standard 12-tone-equal-temperament table: note n is mapped at
pitch n (A4 = note 69 = 440 Hz). -/
def stdTable : List NoteEntry :=
  (List.range 128).map (fun (n : ℕ) => NoteEntry.mapped (n : ℚ))

/-- The freshly registered session: standard tuning, no channel tables,
empty scale name. -/
def initSession : Session :=
  { defaultTable := stdTable, channelTables := fun _ => none, scaleName := [] }

/-- Modelled from the spec: the table a query resolves against — the
default table when no channel is given, and a channel table only when
that slot has been populated, else the default table. -/
def resolvedTable (s : Session) : Option (Fin 16) → List NoteEntry
  | none => s.defaultTable
  | some c => (s.channelTables c).getD s.defaultTable

/-- Apply a batch of single-entry replacements to a table, in order. -/
def applySets (t : List NoteEntry) (l : List (ℕ × NoteEntry)) : List NoteEntry :=
  l.foldl (fun t p => t.set p.1 p.2) t

/-- Modelled from the spec: the table produced by a Scale/Octave Tuning
message — every note is mapped at its 12-tone-equal-temperament base
pitch plus the offset (in cents) of its pitch class. -/
def octaveTable (offsetsCents : List ℚ) : List NoteEntry :=
  (List.range 128).map (fun (n : ℕ) =>
    NoteEntry.mapped ((n : ℚ) + (offsetsCents.getD ((n : ℕ) % (12 : ℕ)) (0 : ℚ)) / 100))

/-- Modelled from the spec: applying a decoded tuning-update event to
the session's store; a whole-table replace also updates the scale name. -/
def applyEvent (s : Session) : TuningUpdateEvent → Session
  | .replaceWhole name tbl => { s with defaultTable := tbl, scaleName := name }
  | .replaceNotes l => { s with defaultTable := applySets s.defaultTable l }
  | .octaveOffsets offs => { s with defaultTable := octaveTable offs }

/-- Modelled from the spec: `parseMidiData` runs the decoder and, on
success, applies the resulting event to the session's store; on decode
failure it is a silent no-op. -/
def parseMidiData (s : Session) (buffer : List ℕ) : Session :=
  match decode buffer with
  | .error _ => s
  | .ok e => applyEvent s e

/-- The unsigned-char entry point: bytes are used as they are. -/
def MTS_ParseMIDIDataU (s : Session) (buffer : List ℕ) : Session :=
  parseMidiData s buffer

/-- The signed-char entry point: each signed char is reinterpreted as
its unsigned byte value before decoding. -/
def MTS_ParseMIDIData (s : Session) (buffer : List ℤ) : Session :=
  parseMidiData s (buffer.map (fun c => (c % 256).toNat))

/-- Modelled from the spec: a Store update — whole-table replace,
note-batch replace, or octave-offset application, each targeting the
default table or one channel table. -/
inductive StoreOp where
  | replaceWhole (ch : Option (Fin 16)) (table : List NoteEntry)
  | replaceNotes (ch : Option (Fin 16)) (updates : List (ℕ × NoteEntry))
  | applyOctaveOffsets (ch : Option (Fin 16)) (offsetsCents : List ℚ)

/-- Write a table into the default slot or one channel slot. -/
def writeTable (s : Session) : Option (Fin 16) → List NoteEntry → Session
  | none, tbl => { s with defaultTable := tbl }
  | some c, tbl =>
      { s with channelTables := fun j => if j = c then some tbl else s.channelTables j }

/-- Modelled from the spec: applying one Store update; a note batch with
any index outside 0-127 is rejected without mutating the table. -/
def applyStoreOp (s : Session) : StoreOp → Session
  | .replaceWhole ch tbl => writeTable s ch tbl
  | .replaceNotes ch l =>
      if l.all (fun p => p.1 < 128) then writeTable s ch (applySets (resolvedTable s ch) l)
      else s
  | .applyOctaveOffsets ch offs => writeTable s ch (octaveTable offs)

/-- Apply a sequence of Store updates in order. -/
def applyStoreOps (s : Session) (ops : List StoreOp) : Session :=
  ops.foldl applyStoreOp s

/-- Modelled from the spec: the pitch the resolution engine answers for
a note — the mapped entry's pitch, or the note's standard
12-tone-equal-temperament pitch as deterministic fallback when the
entry is unmapped (or the note is out of table range). -/
def noteToPitch (s : Session) (note : ℕ) (ch : Option (Fin 16)) : ℚ :=
  match entryAt (resolvedTable s ch) note with
  | .mapped p => p
  | .unmapped => (note : ℚ)

/-- The frequency in Hz denoted by a pitch value, 440 * 2 ^ ((p - 69) / 12). -/
noncomputable def freqOfPitch (p : ℚ) : ℝ :=
  440 * (2 : ℝ) ^ (((p : ℝ) - 69) / 12)

/-- Modelled from the spec: `noteToFrequency` reads the resolved table
entry and never fails — an unmapped note yields the standard
12-tone-equal-temperament frequency at A4 = 440 Hz. -/
noncomputable def noteToFrequency (s : Session) (note : ℕ) (ch : Option (Fin 16)) : ℝ :=
  freqOfPitch (noteToPitch s note ch)

/-- Modelled from the spec: `shouldFilterNote` is true iff the resolved
entry is unmapped. -/
def shouldFilterNote (s : Session) (note : ℕ) (ch : Option (Fin 16)) : Bool :=
  match entryAt (resolvedTable s ch) note with
  | .unmapped => true
  | .mapped _ => false

/-- Keep the argument of least key, the earlier one on ties. -/
def pickMin (key : α → ℚ) (c : α) (cs : List α) : α :=
  cs.foldl (fun b d => if key d < key b then d else b) c

/-- The mapped entries of a table as (note, pitch) pairs in note order. -/
def candidates (t : List NoteEntry) : List (ℕ × ℚ) :=
  (List.range 128).filterMap (fun n =>
    match entryAt t n with
    | .mapped p => some (n, p)
    | .unmapped => none)

/-- The mapped entry nearest a query pitch (log-frequency distance),
ties to the lower note; none when the table has no mapped entry. -/
def bestMapped (t : List NoteEntry) (q : ℚ) : Option (ℕ × ℚ) :=
  match candidates t with
  | [] => none
  | c :: cs => some (pickMin (fun d => |q - d.2|) c cs)

/-- Modelled from the spec: the nearest note under standard tuning, used
as fallback when a table has no mapped entry; ties to the lower note. -/
def stdNearest (q : ℚ) : ℕ :=
  (min 127 (max 0 ⌈q - 1 / 2⌉)).toNat

/-- Modelled from the spec: `frequencyToNote` searches the resolved
table's mapped entries for the one nearest the query in log-frequency
distance (ties to the lower note), falling back to the nearest standard
note when no entry is mapped. The query frequency is given as a pitch. -/
def frequencyToNote (s : Session) (q : ℚ) (ch : Option (Fin 16)) : ℕ :=
  match bestMapped (resolvedTable s ch) q with
  | some b => b.1
  | none => stdNearest q

/-- The per-channel best-mapped candidates, as (channel, (note, pitch))
triples in increasing channel order; an unpopulated channel resolves to
the default table. -/
def chanCands (s : Session) (q : ℚ) : List (ℕ × (ℕ × ℚ)) :=
  (List.finRange 16).filterMap (fun c =>
    (bestMapped (resolvedTable s (some c)) q).map (fun b => ((c : ℕ), b)))

/-- Modelled from the spec: `frequencyToNoteAndChannel` searches the
tables resolved for every sendable MIDI channel 0-15 (an unpopulated
channel resolving to the default table) and returns the best (note,
channel) pair, ties to the lower channel then lower note; with no
mapped entry anywhere it falls back to the nearest standard note on
channel 0. The channel is returned as the written-out char value. -/
def frequencyToNoteAndChannel (s : Session) (q : ℚ) : ℕ × ℤ :=
  match chanCands s q with
  | [] => (stdNearest q, 0)
  | c :: cs =>
    let w := pickMin (fun d => |q - d.2.2|) c cs
    (w.2.1, (w.1 : ℤ))

/-- The channel a written-out char value selects: 0-15 pick the channel
table, anything else the default table. -/
def chanOfInt (c : ℤ) : Option (Fin 16) :=
  if h : 0 ≤ c ∧ c < 16 then some ⟨c.toNat, by omega⟩ else none

/-- Encode one note entry as a 3-byte pitch field; unmapped notes take
the reserved all-0x7F field. -/
def encodeNoteEntry : NoteEntry → List ℕ
  | .unmapped => [127, 127, 127]
  | .mapped p =>
      let s := (⌊p⌋).toNat
      let f := (⌊(p - ⌊p⌋) * 16384⌋).toNat
      [s, f / 128, f % 128]

/-- A Bulk Dump message built from raw name and pitch bytes — framing,
device and program ids, 16 name bytes, 384 pitch bytes and the trailing
checksum over everything between the start byte and the checksum. -/
def mkBulkMsg (dev prog : ℕ) (name pitch : List ℕ) : List ℕ :=
  240 :: (126 :: dev :: 8 :: 1 :: prog :: (name ++ pitch)) ++
    [xor7 (126 :: dev :: 8 :: 1 :: prog :: (name ++ pitch)), 247]

/-- Modelled from the spec: build a non-realtime Bulk Dump message for a
table — framing, device and program ids, 16 name bytes, 128 3-byte
pitch fields and the trailing checksum. -/
def encodeBulkDump (dev prog : ℕ) (name : List ℕ) (t : List NoteEntry) : List ℕ :=
  mkBulkMsg dev prog name ((t.map encodeNoteEntry).flatten)

/-- A note entry whose pitch fits the 3-byte fixed-point encoding. -/
def Representable : NoteEntry → Prop
  | .unmapped => True
  | .mapped p => 0 ≤ p ∧ p < 127 + 16383 / 16384

instance : DecidablePred Representable := by
  intro e
  cases e <;> simp [Representable] <;> infer_instance

/-- The last value a batch of updates writes at a note index, if any. -/
def lastVal? (n : ℕ) : List (ℕ × NoteEntry) → Option NoteEntry
  | [] => none
  | p :: l =>
    match lastVal? n l with
    | some v => some v
    | none => if p.1 = n then some p.2 else none

/-- The running XOR of a byte list. -/
def xorFold (l : List ℕ) : ℕ :=
  l.foldl (fun a b => a ^^^ b) 0

/-- The signed char carrying a given byte value in two's complement. -/
def signedOfByte (b : ℕ) : ℤ :=
  if b < 128 then (b : ℤ) else (b : ℤ) - 256

/-- A session whose default table has no mapped entry at all, as left by
a Bulk Dump carrying only the reserved unmapped pitch fields. -/
def sEmpty : Session :=
  parseMidiData initSession
    (encodeBulkDump 0 0 (List.replicate 16 0) (List.replicate 128 NoteEntry.unmapped))

/-- The frequency denoted by any pitch is strictly positive. -/
theorem freqOfPitch_pos (p : ℚ) : 0 < freqOfPitch p :=
  mul_pos (by norm_num) (Real.rpow_pos_of_pos (by norm_num) _)

theorem pickMin_cons (key : α → ℚ) (c d : α) (cs : List α) :
    pickMin key c (d :: cs) = pickMin key (if key d < key c then d else c) cs := rfl

/-- The fold result is one of the candidates and minimizes the key. -/
theorem pickMin_spec (key : α → ℚ) (c : α) (cs : List α) :
    (pickMin key c cs = c ∨ pickMin key c cs ∈ cs) ∧
    key (pickMin key c cs) ≤ key c ∧ ∀ d ∈ cs, key (pickMin key c cs) ≤ key d := by
  induction cs generalizing c with
  | nil => simp [pickMin]
  | cons e cs ih =>
    rw [pickMin_cons]
    by_cases hc : key e < key c
    · rw [if_pos hc]
      rcases ih e with ⟨hmem, hle, hall⟩
      refine ⟨?_, le_trans hle (le_of_lt hc), ?_⟩
      · rcases hmem with h | h
        · exact Or.inr (by rw [h]; exact List.mem_cons_self e cs)
        · exact Or.inr (List.mem_cons_of_mem _ h)
      · intro d hd
        rcases List.mem_cons.mp hd with rfl | hd
        · exact hle
        · exact hall d hd
    · rw [if_neg hc]
      rcases ih c with ⟨hmem, hle, hall⟩
      refine ⟨?_, hle, ?_⟩
      · rcases hmem with h | h
        · exact Or.inl h
        · exact Or.inr (List.mem_cons_of_mem _ h)
      · intro d hd
        rcases List.mem_cons.mp hd with rfl | hd
        · exact le_trans hle (not_lt.mp hc)
        · exact hall d hd

/-- Among candidates of minimal key the fold keeps the one of least
index, provided indices are strictly increasing along the list. -/
theorem pickMin_tie (key : α → ℚ) (idx : α → ℕ) (c : α) (cs : List α)
    (hs : (c :: cs).Pairwise (fun a b => idx a < idx b)) :
    ∀ d, (d = c ∨ d ∈ cs) → key (pickMin key c cs) = key d →
      idx (pickMin key c cs) ≤ idx d := by
  induction cs generalizing c with
  | nil =>
    intro d hd _
    rcases hd with rfl | hd
    · exact le_refl _
    · cases hd
  | cons e cs ih =>
    rcases List.pairwise_cons.mp hs with ⟨hc1, hs'⟩
    rw [pickMin_cons]
    by_cases hce : key e < key c
    · rw [if_pos hce]
      intro d hd heq
      rcases hd with rfl | hd
      · exfalso
        have hle := (pickMin_spec key e cs).2.1
        rw [heq] at hle
        exact absurd (lt_of_le_of_lt hle hce) (lt_irrefl _)
      · exact ih e hs' d (List.mem_cons.mp hd) heq
    · rw [if_neg hce]
      have hs'' : (c :: cs).Pairwise (fun a b => idx a < idx b) :=
        List.pairwise_cons.mpr ⟨fun b hb => hc1 b (List.mem_cons_of_mem _ hb),
          (List.pairwise_cons.mp hs').2⟩
      intro d hd heq
      rcases hd with rfl | hd
      · exact ih _ hs'' _ (Or.inl rfl) heq
      rcases List.mem_cons.mp hd with rfl | hd
      · have h1 : key (pickMin key c cs) ≤ key c := (pickMin_spec key c cs).2.1
        have h2 : key c ≤ key d := not_lt.mp hce
        have h3 : key (pickMin key c cs) = key c := le_antisymm h1 (heq ▸ h2)
        exact le_trans (ih _ hs'' _ (Or.inl rfl) h3) (le_of_lt (hc1 d (by simp)))
      · exact ih c hs'' d (Or.inr hd) heq

theorem mem_candidates {t : List NoteEntry} {n : ℕ} {p : ℚ} :
    (n, p) ∈ candidates t ↔ n < 128 ∧ entryAt t n = .mapped p := by
  simp only [candidates, List.mem_filterMap, List.mem_range]
  constructor
  · rintro ⟨a, ha, hfa⟩
    cases h : entryAt t a with
    | mapped q =>
      rw [h] at hfa
      simp only [Option.some.injEq, Prod.mk.injEq] at hfa
      refine ⟨hfa.1 ▸ ha, ?_⟩
      rw [← hfa.1, h, hfa.2]
    | unmapped => rw [h] at hfa; cases hfa
  · rintro ⟨hn, hp⟩
    exact ⟨n, hn, by rw [hp]⟩

theorem candidates_pairwise (t : List NoteEntry) :
    (candidates t).Pairwise (fun a b => a.1 < b.1) := by
  refine List.pairwise_filterMap.mpr ?_
  refine (List.pairwise_lt_range 128).imp ?_
  intro a b hab x hx y hy
  cases ha : entryAt t a <;> rw [ha] at hx <;>
    simp only [Option.mem_def, Option.some.injEq, reduceCtorEq] at hx
  cases hb : entryAt t b <;> rw [hb] at hy <;>
    simp only [Option.mem_def, Option.some.injEq, reduceCtorEq] at hy
  rw [← hx, ← hy]
  exact hab

theorem bestMapped_eq_pick {t : List NoteEntry} {q : ℚ} {b : ℕ × ℚ}
    (h : bestMapped t q = some b) :
    ∃ c cs, candidates t = c :: cs ∧ b = pickMin (fun d => |q - d.2|) c cs := by
  rw [bestMapped] at h
  cases hc : candidates t with
  | nil => rw [hc] at h; cases h
  | cons c cs =>
    rw [hc] at h
    exact ⟨c, cs, rfl, (Option.some_inj.mp h).symm⟩

theorem bestMapped_mem {t : List NoteEntry} {q : ℚ} {b : ℕ × ℚ}
    (h : bestMapped t q = some b) : b.1 < 128 ∧ entryAt t b.1 = .mapped b.2 := by
  obtain ⟨c, cs, hc, hb⟩ := bestMapped_eq_pick h
  have hmem : b ∈ candidates t := by
    rw [hc, hb]
    rcases (pickMin_spec (fun d => |q - d.2|) c cs).1 with h1 | h1
    · rw [h1]; exact List.mem_cons_self c cs
    · exact List.mem_cons_of_mem _ h1
  have : (b.1, b.2) ∈ candidates t := by rwa [Prod.mk.eta]
  exact mem_candidates.mp this

theorem bestMapped_le {t : List NoteEntry} {q : ℚ} {b : ℕ × ℚ}
    (h : bestMapped t q = some b) :
    ∀ n p, n < 128 → entryAt t n = .mapped p → |q - b.2| ≤ |q - p| := by
  intro n p hn hp
  have hmem : (n, p) ∈ candidates t := mem_candidates.mpr ⟨hn, hp⟩
  obtain ⟨c, cs, hc, hb⟩ := bestMapped_eq_pick h
  rw [hc] at hmem
  rcases List.mem_cons.mp hmem with heq | hmem
  · have h1 := (pickMin_spec (fun d => |q - d.2|) c cs).2.1
    rw [← hb, ← heq] at h1
    exact h1
  · have h1 := (pickMin_spec (fun d => |q - d.2|) c cs).2.2 _ hmem
    rw [← hb] at h1
    exact h1

theorem bestMapped_tie {t : List NoteEntry} {q : ℚ} {b : ℕ × ℚ}
    (h : bestMapped t q = some b) :
    ∀ n p, n < 128 → entryAt t n = .mapped p → |q - b.2| = |q - p| → b.1 ≤ n := by
  intro n p hn hp heq
  have hmem : (n, p) ∈ candidates t := mem_candidates.mpr ⟨hn, hp⟩
  obtain ⟨c, cs, hc, hb⟩ := bestMapped_eq_pick h
  have hpw := candidates_pairwise t
  rw [hc] at hpw hmem
  have := pickMin_tie (fun d => |q - d.2|) (fun d => d.1) c cs hpw (n, p)
    (List.mem_cons.mp hmem) (by rw [← hb]; exact heq)
  rw [← hb] at this
  exact this

theorem bestMapped_isSome {t : List NoteEntry} {q : ℚ} {n : ℕ} {p : ℚ}
    (hn : n < 128) (hp : entryAt t n = .mapped p) :
    ∃ b, bestMapped t q = some b := by
  have hmem : (n, p) ∈ candidates t := mem_candidates.mpr ⟨hn, hp⟩
  rw [bestMapped]
  cases hc : candidates t with
  | nil => rw [hc] at hmem; cases hmem
  | cons c cs => exact ⟨_, rfl⟩

theorem candidates_eq_nil {t : List NoteEntry} :
    candidates t = [] ↔ ∀ n, n < 128 → entryAt t n = .unmapped := by
  rw [candidates, List.filterMap_eq_nil_iff]
  constructor
  · intro h n hn
    have := h n (List.mem_range.mpr hn)
    cases he : entryAt t n with
    | mapped p => rw [he] at this; cases this
    | unmapped => rfl
  · intro h n hn
    rw [h n (List.mem_range.mp hn)]

theorem applySets_cons (t : List NoteEntry) (p : ℕ × NoteEntry) (l : List (ℕ × NoteEntry)) :
    applySets t (p :: l) = applySets (t.set p.1 p.2) l := rfl

theorem applySets_length (t : List NoteEntry) (l : List (ℕ × NoteEntry)) :
    (applySets t l).length = t.length := by
  induction l generalizing t with
  | nil => rfl
  | cons p l ih => rw [applySets_cons, ih, List.length_set]

theorem applySets_getElem? (t : List NoteEntry) (l : List (ℕ × NoteEntry)) (n : ℕ) :
    (applySets t l)[n]? =
      match lastVal? n l with
      | some v => if n < t.length then some v else none
      | none => t[n]? := by
  induction l generalizing t with
  | nil => rfl
  | cons p l ih =>
    rw [applySets_cons, ih, lastVal?]
    cases hv : lastVal? n l with
    | some v => simp only [List.length_set]
    | none =>
      rw [List.getElem?_set]
      by_cases hpn : p.1 = n
      · subst hpn
        simp only [if_pos rfl]
        by_cases hlt : p.1 < t.length
        · simp [hlt]
        · simp [hlt]
      · simp [hpn]

theorem applySets_idem (t : List NoteEntry) (l : List (ℕ × NoteEntry)) :
    applySets (applySets t l) l = applySets t l := by
  apply List.ext_getElem?
  intro n
  rw [applySets_getElem? (applySets t l), applySets_getElem? t]
  cases hv : lastVal? n l with
  | some v => rw [applySets_length]
  | none => rfl

theorem xor_left_comm (a b c : ℕ) : a ^^^ (b ^^^ c) = b ^^^ (a ^^^ c) := by
  rw [← Nat.xor_assoc, Nat.xor_comm a b, Nat.xor_assoc]

theorem xor_cancel_left (a b : ℕ) : a ^^^ (a ^^^ b) = b := by
  rw [← Nat.xor_assoc, Nat.xor_self, Nat.zero_xor]

theorem foldl_xor_shift (l : List ℕ) (a : ℕ) :
    l.foldl (fun a b => a ^^^ b) a = a ^^^ xorFold l := by
  induction l generalizing a with
  | nil => simp [xorFold]
  | cons x t ih =>
    rw [List.foldl_cons, ih]
    have h2 : xorFold (x :: t) = x ^^^ xorFold t := by
      rw [xorFold, List.foldl_cons, ih, Nat.zero_xor]
    rw [h2, Nat.xor_assoc]

theorem xorFold_cons (x : ℕ) (t : List ℕ) : xorFold (x :: t) = x ^^^ xorFold t := by
  rw [xorFold, List.foldl_cons, foldl_xor_shift, Nat.zero_xor]

theorem xorFold_lt (l : List ℕ) (h : ∀ b ∈ l, b < 128) : xorFold l < 128 := by
  induction l with
  | nil => simp [xorFold]
  | cons x t ih =>
    rw [xorFold_cons]
    have h128 : (128 : ℕ) = 2 ^ 7 := by norm_num
    rw [h128]
    exact Nat.xor_lt_two_pow (h128 ▸ h x (List.mem_cons_self x t))
      (h128 ▸ ih (fun b hb => h b (List.mem_cons_of_mem _ hb)))

theorem xorFold_set (l : List ℕ) (i v : ℕ) (hi : i < l.length) :
    xorFold (l.set i v) = xorFold l ^^^ (l.getD i 0 ^^^ v) := by
  induction l generalizing i with
  | nil => cases hi
  | cons x t ih =>
    cases i with
    | zero =>
      rw [List.set_cons_zero, List.getD_cons_zero, xorFold_cons, xorFold_cons,
        Nat.xor_assoc, xor_left_comm (xorFold t) x v, xor_cancel_left,
        Nat.xor_comm (xorFold t) v]
    | succ i =>
      rw [List.set_cons_succ, List.getD_cons_succ, xorFold_cons, xorFold_cons,
        ih i (Nat.lt_of_succ_lt_succ hi), Nat.xor_assoc]

theorem xor7_eq (l : List ℕ) : xor7 l = xorFold l % 128 := rfl

theorem xor7_set_ne (l : List ℕ) (i v : ℕ) (hi : i < l.length)
    (hall : ∀ b ∈ l, b < 128) (hv : v < 128) (hne : v ≠ l.getD i 0) :
    xor7 (l.set i v) ≠ xor7 l := by
  have hx : xorFold (l.set i v) = xorFold l ^^^ (l.getD i 0 ^^^ v) := xorFold_set l i v hi
  have hlt : xorFold l < 128 := xorFold_lt l hall
  have hold : l.getD i 0 < 128 := by
    have hmem : l.getD i 0 ∈ l := by
      have h1 : l.getD i 0 = l.get ⟨i, hi⟩ := by
        rw [List.getD_eq_getElem?_getD, List.getElem?_eq_getElem hi]
        rfl
      rw [h1]
      exact List.get_mem l i hi
    exact hall _ hmem
  have h128 : (128 : ℕ) = 2 ^ 7 := by norm_num
  have hd : l.getD i 0 ^^^ v < 128 := by
    rw [h128]
    exact Nat.xor_lt_two_pow (h128 ▸ hold) (h128 ▸ hv)
  have hdne : l.getD i 0 ^^^ v ≠ 0 := by
    intro h0
    exact hne (Nat.xor_eq_zero.mp h0).symm
  have hlt' : xorFold (l.set i v) < 128 := by
    rw [hx, h128]
    exact Nat.xor_lt_two_pow (h128 ▸ hlt) (h128 ▸ hd)
  rw [xor7_eq, xor7_eq, Nat.mod_eq_of_lt hlt, Nat.mod_eq_of_lt hlt', hx]
  intro hcontra
  apply hdne
  have h2 : xorFold l ^^^ (xorFold l ^^^ (l.getD i 0 ^^^ v)) = xorFold l ^^^ xorFold l :=
    congrArg (fun z => xorFold l ^^^ z) hcontra
  rwa [xor_cancel_left, Nat.xor_self] at h2

/-- Decoding a message with Bulk Dump framing and 7-bit data bytes comes
down to the checksum comparison. -/
theorem decode_bulkShape (dev : ℕ) (rest : List ℕ) (chk : ℕ)
    (hdev : dev < 128) (hrest : ∀ b ∈ rest, b < 128) (hchk : chk < 128)
    (hlen : rest.length = 401) :
    decode (240 :: (126 :: dev :: 8 :: 1 :: rest) ++ [chk, 247]) =
      if xor7 (126 :: dev :: 8 :: 1 :: rest) = chk
      then Except.ok (TuningUpdateEvent.replaceWhole ((rest.drop 1).take 16)
        (decodeTableAux ((rest.drop 17).take 384)))
      else Except.error DecodeError.checksumMismatch := by
  have hm : (240 :: (126 :: dev :: 8 :: 1 :: rest)) ++ [chk, 247] =
      240 :: 126 :: dev :: 8 :: 1 :: (rest ++ [chk, 247]) := by
    simp [List.cons_append]
  have hsplit : rest ++ [chk, 247] = (rest ++ [chk]) ++ [247] := by
    rw [List.append_assoc]
    rfl
  have hlen2 : ((240 :: (126 :: dev :: 8 :: 1 :: rest)) ++ [chk, 247]).length = 408 := by
    rw [List.length_append, List.length_cons, List.length_cons, List.length_cons,
      List.length_cons, List.length_cons, hlen]
    rfl
  rw [decode]
  rw [if_neg (by rw [hlen2]; norm_num)]
  rw [hm]
  rw [if_neg (by rw [List.head?_cons]; simp)]
  have hlast : (240 :: 126 :: dev :: 8 :: 1 :: (rest ++ [chk, 247])).getLast? = some 247 := by
    rw [hsplit]
    have : 240 :: 126 :: dev :: 8 :: 1 :: ((rest ++ [chk]) ++ [247]) =
        (240 :: 126 :: dev :: 8 :: 1 :: (rest ++ [chk])) ++ [247] := by
      simp [List.cons_append]
    rw [this, List.getLast?_concat]
  rw [if_neg (by rw [hlast]; simp)]
  have hbody : ((240 :: 126 :: dev :: 8 :: 1 :: (rest ++ [chk, 247])).drop 1).dropLast =
      126 :: dev :: 8 :: 1 :: (rest ++ [chk]) := by
    have hdrop : (240 :: 126 :: dev :: 8 :: 1 :: (rest ++ [chk, 247])).drop 1 =
        126 :: dev :: 8 :: 1 :: (rest ++ [chk, 247]) := rfl
    rw [hdrop, hsplit]
    have : 126 :: dev :: 8 :: 1 :: ((rest ++ [chk]) ++ [247]) =
        (126 :: dev :: 8 :: 1 :: (rest ++ [chk])) ++ [247] := by
      simp [List.cons_append]
    rw [this, List.dropLast_concat]
  rw [hbody]
  have hany : (126 :: dev :: 8 :: 1 :: (rest ++ [chk])).any (fun b => 128 ≤ b) = false := by
    rw [List.any_eq_false]
    intro x hx
    simp only [List.mem_cons, List.mem_append, List.not_mem_nil, or_false] at hx
    rcases hx with rfl | rfl | rfl | rfl | hx | rfl
    · simp
    · simpa using hdev
    · simp
    · simp
    · simpa using hrest x hx
    · simpa using hchk
  rw [if_neg (by rw [hany]; simp)]
  rw [dispatchBody]
  rw [if_neg (by simp)]
  rw [if_neg (by simp)]
  rw [if_pos rfl]
  rw [decodeBulk]
  have hblen : (rest ++ [chk]).length = 402 := by
    rw [List.length_append, hlen]
    rfl
  rw [if_neg (by rw [hblen]; norm_num), if_neg (by rw [hblen]; norm_num)]
  have hchk2 : ((rest ++ [chk]).getLast?).getD 0 = chk := by
    rw [List.getLast?_concat]
    rfl
  have hpay : (rest ++ [chk]).dropLast = rest := List.dropLast_concat
  have hdrop1 : ((rest ++ [chk]).drop 1).take 16 = (rest.drop 1).take 16 := by
    rw [List.drop_append_of_le_length (by rw [hlen]; norm_num),
      List.take_append_of_le_length (by rw [List.length_drop, hlen]; norm_num)]
  have hdrop17 : ((rest ++ [chk]).drop 17).take 384 = (rest.drop 17).take 384 := by
    rw [List.drop_append_of_le_length (by rw [hlen]; norm_num),
      List.take_append_of_le_length (by rw [List.length_drop, hlen])]
  rw [hchk2, hpay, hdrop1, hdrop17]
  by_cases hx : xor7 (126 :: dev :: 8 :: 1 :: rest) = chk
  · rw [if_neg (by rw [hx]; simp), if_pos hx]
  · rw [if_pos hx, if_neg hx]

/-- The two relevant entries of a 3-byte pitch-field round trip: the byte
values are 7-bit and the decoded pitch undershoots the original by less
than one 16384th of a semitone. -/
theorem encode_mapped_roundtrip (p : ℚ) (h0 : 0 ≤ p) (h1 : p < 127 + 16383 / 16384) :
    ∃ a b c, encodeNoteEntry (.mapped p) = [a, b, c] ∧ a < 128 ∧ b < 128 ∧ c < 128 ∧
      ∃ p', decodeEntry a b c = .mapped p' ∧ 0 ≤ p - p' ∧ p - p' < 1 / 16384 := by
  have hfl0 : (0 : ℤ) ≤ ⌊p⌋ := Int.floor_nonneg.mpr h0
  have hfl1 : ⌊p⌋ < 128 := Int.floor_lt.mpr (lt_trans h1 (by norm_num))
  have hfr0 : (0 : ℚ) ≤ (p - ⌊p⌋) * 16384 := by
    rw [Int.self_sub_floor]
    exact mul_nonneg (Int.fract_nonneg p) (by norm_num)
  have hfr1 : (p - ⌊p⌋) * 16384 < 16384 := by
    rw [Int.self_sub_floor]
    calc Int.fract p * 16384 < 1 * 16384 :=
          mul_lt_mul_of_pos_right (Int.fract_lt_one p) (by norm_num)
      _ = 16384 := one_mul _
  have hff0 : (0 : ℤ) ≤ ⌊(p - ⌊p⌋) * 16384⌋ := Int.floor_nonneg.mpr hfr0
  have hff1 : ⌊(p - ⌊p⌋) * 16384⌋ < 16384 := Int.floor_lt.mpr (by exact_mod_cast hfr1)
  set a : ℕ := (⌊p⌋).toNat with ha
  set f : ℕ := (⌊(p - ⌊p⌋) * 16384⌋).toNat with hf
  have haz : (a : ℤ) = ⌊p⌋ := Int.toNat_of_nonneg hfl0
  have hfz : (f : ℤ) = ⌊(p - ⌊p⌋) * 16384⌋ := Int.toNat_of_nonneg hff0
  have ha128 : a < 128 := by omega
  have hf16384 : f < 16384 := by omega
  refine ⟨a, f / 128, f % 128, rfl, ha128, by omega, by omega, ?_⟩
  have hcond : ¬(a = 127 ∧ f / 128 = 127 ∧ f % 128 = 127) := by
    rintro ⟨ha127, hb127, hc127⟩
    have hf16383 : f = 16383 := by omega
    have hfl127 : ⌊p⌋ = 127 := by omega
    have hge : (16383 : ℚ) ≤ (p - ⌊p⌋) * 16384 := by
      have : (16383 : ℤ) ≤ ⌊(p - ⌊p⌋) * 16384⌋ := by omega
      exact_mod_cast Int.le_floor.mp this
    have : 127 + 16383 / 16384 ≤ p := by
      rw [hfl127] at hge
      push_cast at hge
      linarith
    linarith
  have hdec : decodeEntry a (f / 128) (f % 128) =
      .mapped ((a : ℚ) + ((f / 128 * 128 + f % 128 : ℕ) : ℚ) / 16384) := by
    rw [decodeEntry, if_neg hcond]
  have hfrec : f / 128 * 128 + f % 128 = f := by omega
  refine ⟨(a : ℚ) + (f : ℚ) / 16384, by rw [hdec, hfrec], ?_, ?_⟩
  · have hle : (f : ℚ) ≤ (p - ⌊p⌋) * 16384 := by
      have h2 : ((f : ℤ) : ℚ) ≤ (p - ⌊p⌋) * 16384 := hfz ▸ Int.floor_le _
      exact_mod_cast h2
    have haq : (a : ℚ) = ((⌊p⌋ : ℤ) : ℚ) := by exact_mod_cast haz
    rw [haq]
    have := Int.floor_le p
    nlinarith [hle]
  · have hlt : (p - ⌊p⌋) * 16384 < (f : ℚ) + 1 := by
      have h2 : (p - ⌊p⌋) * 16384 < ((f : ℤ) : ℚ) + 1 := hfz ▸ Int.lt_floor_add_one _
      exact_mod_cast h2
    have haq : (a : ℚ) = ((⌊p⌋ : ℤ) : ℚ) := by exact_mod_cast haz
    rw [haq]
    nlinarith [hlt]

theorem encodeNoteEntry_length (e : NoteEntry) : (encodeNoteEntry e).length = 3 := by
  cases e <;> rfl

theorem encode_flatten_length (t : List NoteEntry) :
    ((t.map encodeNoteEntry).flatten).length = 3 * t.length := by
  induction t with
  | nil => rfl
  | cons e t ih =>
    rw [List.map_cons, List.flatten_cons, List.length_append, ih,
      encodeNoteEntry_length, List.length_cons]
    ring

theorem encode_flatten_bytes_lt (t : List NoteEntry) (ht : ∀ e ∈ t, Representable e) :
    ∀ b ∈ (t.map encodeNoteEntry).flatten, b < 128 := by
  intro x hx
  rw [List.mem_flatten] at hx
  obtain ⟨l, hl, hxl⟩ := hx
  rw [List.mem_map] at hl
  obtain ⟨e, het, rfl⟩ := hl
  cases e with
  | unmapped =>
    simp only [encodeNoteEntry, List.mem_cons, List.not_mem_nil, or_false] at hxl
    rcases hxl with rfl | rfl | rfl <;> norm_num
  | mapped p =>
    have hrep := ht _ het
    rw [Representable] at hrep
    obtain ⟨a, b, c, henc, hab, hbb, hcb, -⟩ :=
      encode_mapped_roundtrip p hrep.1 hrep.2
    rw [henc] at hxl
    simp only [List.mem_cons, List.not_mem_nil, or_false] at hxl
    rcases hxl with rfl | rfl | rfl <;> assumption

/-- The decoded pitch list stands in entrywise round-trip relation to the
original table. -/
theorem decodeTableAux_encode (t : List NoteEntry) (ht : ∀ e ∈ t, Representable e) :
    List.Forall₂ (fun e e' =>
      (e = NoteEntry.unmapped ∧ e' = NoteEntry.unmapped) ∨
      ∃ p p', e = NoteEntry.mapped p ∧ e' = NoteEntry.mapped p' ∧
        0 ≤ p - p' ∧ p - p' < 1 / 16384)
      t (decodeTableAux ((t.map encodeNoteEntry).flatten)) := by
  induction t with
  | nil => exact List.Forall₂.nil
  | cons e t ih =>
    have iht := ih (fun x hx => ht x (List.mem_cons_of_mem _ hx))
    cases e with
    | unmapped =>
      rw [List.map_cons, List.flatten_cons]
      exact List.Forall₂.cons (Or.inl ⟨rfl, rfl⟩) iht
    | mapped p =>
      have hrep := ht _ (List.mem_cons_self _ _)
      rw [Representable] at hrep
      obtain ⟨a, b, c, henc, -, -, -, p', hdec, hb0, hb1⟩ :=
        encode_mapped_roundtrip p hrep.1 hrep.2
      rw [List.map_cons, List.flatten_cons, henc, List.cons_append, List.cons_append,
        List.cons_append, List.nil_append]
      rw [show decodeTableAux (a :: b :: c :: (t.map encodeNoteEntry).flatten) =
        decodeEntry a b c :: decodeTableAux ((t.map encodeNoteEntry).flatten) from rfl]
      rw [hdec]
      exact List.Forall₂.cons (Or.inr ⟨p, p', rfl, rfl, hb0, hb1⟩) iht

/-- Decoding the encoder's output always succeeds and yields a
whole-table replace carrying the encoded name and pitch data. -/
theorem decode_encodeBulkDump (dev prog : ℕ) (name : List ℕ) (t : List NoteEntry)
    (hdev : dev < 128) (hprog : prog < 128)
    (hnlen : name.length = 16) (hnb : ∀ b ∈ name, b < 128)
    (htlen : t.length = 128) (hrep : ∀ e ∈ t, Representable e) :
    decode (encodeBulkDump dev prog name t) =
      Except.ok (TuningUpdateEvent.replaceWhole name
        (decodeTableAux ((t.map encodeNoteEntry).flatten))) := by
  have hplen : ((t.map encodeNoteEntry).flatten).length = 384 := by
    rw [encode_flatten_length, htlen]
  have hrlen : (prog :: (name ++ (t.map encodeNoteEntry).flatten)).length = 401 := by
    rw [List.length_cons, List.length_append, hnlen, hplen]
  have hrb : ∀ b ∈ prog :: (name ++ (t.map encodeNoteEntry).flatten), b < 128 := by
    intro x hx
    simp only [List.mem_cons, List.mem_append] at hx
    rcases hx with rfl | hx | hx
    · exact hprog
    · exact hnb x hx
    · exact encode_flatten_bytes_lt t hrep x hx
  have hchk : xor7 (126 :: dev :: 8 :: 1 :: prog :: (name ++ (t.map encodeNoteEntry).flatten)) < 128 :=
    Nat.mod_lt _ (by norm_num)
  rw [encodeBulkDump, mkBulkMsg]
  rw [decode_bulkShape dev (prog :: (name ++ (t.map encodeNoteEntry).flatten)) _ hdev hrb hchk hrlen]
  rw [if_pos rfl]
  have hdrop1 : ((prog :: (name ++ (t.map encodeNoteEntry).flatten)).drop 1).take 16 = name := by
    rw [show (prog :: (name ++ (t.map encodeNoteEntry).flatten)).drop 1 =
      name ++ (t.map encodeNoteEntry).flatten from rfl]
    exact List.take_left' hnlen
  have hdrop17 : ((prog :: (name ++ (t.map encodeNoteEntry).flatten)).drop 17).take 384 =
      (t.map encodeNoteEntry).flatten := by
    rw [List.drop_succ_cons, List.drop_left' hnlen, ← hplen]
    exact List.take_length _
  rw [hdrop1, hdrop17]

theorem mem_chanCands {s : Session} {q : ℚ} {x : ℕ × (ℕ × ℚ)} :
    x ∈ chanCands s q ↔ ∃ c : Fin 16, x.1 = (c : ℕ) ∧
      bestMapped (resolvedTable s (some c)) q = some x.2 := by
  rw [chanCands, List.mem_filterMap]
  constructor
  · rintro ⟨c, -, hc⟩
    rw [Option.map_eq_some'] at hc
    obtain ⟨b, hb, hxb⟩ := hc
    refine ⟨c, ?_, ?_⟩
    · rw [← hxb]
    · rw [hb, ← hxb]
  · rintro ⟨c, hx1, hbm⟩
    refine ⟨c, List.mem_finRange c, ?_⟩
    rw [hbm]
    show some ((c : ℕ), x.2) = some x
    rw [← hx1, Prod.mk.eta]

theorem pickMin_const (key : α → ℚ) (c : α) (cs : List α)
    (h : ∀ d ∈ cs, key d = key c) : pickMin key c cs = c := by
  induction cs with
  | nil => rfl
  | cons e cs ih =>
    rw [pickMin_cons, if_neg (by rw [h e (List.mem_cons_self e cs)]; exact lt_irrefl _)]
    exact ih (fun d hd => h d (List.mem_cons_of_mem _ hd))

theorem chanOfInt_natCast (c : Fin 16) : chanOfInt ((c : ℕ) : ℤ) = some c := by
  rw [chanOfInt, dif_pos ⟨Int.natCast_nonneg _, by exact_mod_cast c.2⟩]
  congr 1

theorem filterMap_some_eq_map (f : α → β) (l : List α) :
    l.filterMap (fun a => some (f a)) = l.map f := by
  induction l with
  | nil => rfl
  | cons a l ih => simp [List.filterMap_cons, ih]

/-- C1: for every valid note (0-127) and channel (none, standing for -1,
or 0-15), shouldFilterNote is true iff the resolved table entry for that
note is unmapped, and for an unmapped entry noteToFrequency still
returns the deterministic 12-tone-equal-temperament fallback frequency
440 * 2 ^ ((note - 69) / 12) at A4 = 440 Hz, never failing. -/
theorem claim_C1 (s : Session) (note : ℕ) (ch : Option (Fin 16)) (_hn : note < 128) :
    (shouldFilterNote s note ch = true ↔ entryAt (resolvedTable s ch) note = .unmapped) ∧
    (entryAt (resolvedTable s ch) note = .unmapped →
      noteToFrequency s note ch = 440 * (2 : ℝ) ^ (((note : ℝ) - 69) / 12)) := by
  constructor
  · cases he : entryAt (resolvedTable s ch) note <;> simp [shouldFilterNote, he]
  · intro he
    have hp : noteToPitch s note ch = (note : ℚ) := by rw [noteToPitch, he]
    rw [noteToFrequency, hp, freqOfPitch]
    norm_cast

set_option maxRecDepth 8192 in
/-- Witness for C1 at note 60 of a session whose table is all unmapped. -/
theorem claim_C1_witness :
    shouldFilterNote sEmpty 60 none = true ∧
    noteToFrequency sEmpty 60 none = 440 * (2 : ℝ) ^ (((60 : ℝ) - 69) / 12) := by
  have h := claim_C1 sEmpty 60 none (by norm_num)
  have he : entryAt (resolvedTable sEmpty none) 60 = .unmapped := by decide
  exact ⟨h.1.mpr he, h.2 he⟩

/-- C2: for every valid note/channel pair, noteToFrequency is strictly
positive (and, the model being exact real arithmetic, finite), in the
initial state and after any sequence of Store updates — whole-table
replaces, note-batch replaces, octave-offset applications. -/
theorem claim_C2 (ops : List StoreOp) (note : ℕ) (ch : Option (Fin 16)) :
    0 < noteToFrequency (applyStoreOps initSession ops) note ch :=
  freqOfPitch_pos _

/-- C5: on every decode failure, of any of the four error kinds,
parseMidiData is a silent no-op leaving the whole session state
unchanged. -/
theorem claim_C5 (s : Session) (buffer : List ℕ) (e : DecodeError)
    (h : decode buffer = .error e) : parseMidiData s buffer = s := by
  rw [parseMidiData, h]

/-- Witness for C5 on the empty buffer, which decodes to tooShort. -/
theorem claim_C5_witness : parseMidiData initSession [] = initSession :=
  claim_C5 initSession [] DecodeError.tooShort rfl

/-- C6: parsing a byte buffer through the signed-char entry point and
the same bytes through the unsigned-char entry point produces the same
final session: the decoder treats input as an opaque byte sequence. -/
theorem claim_C6 (s : Session) (buffer : List ℕ) (h : ∀ b ∈ buffer, b < 256) :
    MTS_ParseMIDIData s (buffer.map signedOfByte) = MTS_ParseMIDIDataU s buffer := by
  rw [MTS_ParseMIDIData, MTS_ParseMIDIDataU, List.map_map]
  congr 1
  conv_rhs => rw [← List.map_id buffer]
  apply List.map_congr_left
  intro b hb
  have hb256 := h b hb
  simp only [Function.comp_apply, signedOfByte, id]
  by_cases hs : b < 128
  · rw [if_pos hs]
    omega
  · rw [if_neg hs]
    omega

/-- Witness for C6 on a short buffer containing a byte above 127. -/
theorem claim_C6_witness :
    MTS_ParseMIDIData initSession ([240, 200, 247].map signedOfByte) =
      MTS_ParseMIDIDataU initSession [240, 200, 247] :=
  claim_C6 initSession [240, 200, 247] (by decide)

/-- C8: decoding and applying the same buffer twice in succession yields
exactly the same session as applying it once, from every starting
state. -/
theorem claim_C8 (s : Session) (buffer : List ℕ) :
    parseMidiData (parseMidiData s buffer) buffer = parseMidiData s buffer := by
  cases hdec : decode buffer with
  | error e => rw [parseMidiData, hdec, parseMidiData, hdec]
  | ok e =>
    rw [parseMidiData, hdec, parseMidiData, hdec]
    cases e with
    | replaceWhole nm tbl => rfl
    | octaveOffsets offs => rfl
    | replaceNotes l => simp [applyEvent, applySets_idem]

/-- C3: frequencyToNote searches the resolved table (the default table
when no channel is given) over mapped entries only: when some entry is
mapped it returns a mapped note of minimal log-frequency distance to
the query, ties broken by the lower note number; a query exactly equal
to a mapped entry's frequency returns a note mapped at exactly that
frequency, never above that entry's note; with no mapped entry at all
it falls back to the nearest note under standard tuning. The query
frequency is given as its pitch, log-frequency distance being pitch
distance. -/
theorem claim_C3 (s : Session) (ch : Option (Fin 16)) (q : ℚ) :
    (∀ b, bestMapped (resolvedTable s ch) q = some b →
      frequencyToNote s q ch = b.1 ∧ b.1 < 128 ∧
      entryAt (resolvedTable s ch) b.1 = .mapped b.2 ∧
      ∀ n p, n < 128 → entryAt (resolvedTable s ch) n = .mapped p →
        |q - b.2| ≤ |q - p| ∧ (|q - b.2| = |q - p| → b.1 ≤ n)) ∧
    (∀ n, n < 128 → entryAt (resolvedTable s ch) n = .mapped q →
      entryAt (resolvedTable s ch) (frequencyToNote s q ch) = .mapped q ∧
      frequencyToNote s q ch ≤ n) ∧
    ((∀ n, n < 128 → entryAt (resolvedTable s ch) n = .unmapped) →
      frequencyToNote s q ch = stdNearest q) := by
  refine ⟨?_, ?_, ?_⟩
  · intro b hb
    refine ⟨by rw [frequencyToNote, hb], (bestMapped_mem hb).1, (bestMapped_mem hb).2, ?_⟩
    intro n p hn hp
    exact ⟨bestMapped_le hb n p hn hp, bestMapped_tie hb n p hn hp⟩
  · intro n hn hq
    obtain ⟨b, hb⟩ := bestMapped_isSome (q := q) hn hq
    have hbe := bestMapped_mem hb
    have hle := bestMapped_le hb n q hn hq
    have hb2 : b.2 = q := by
      have h0 : |q - b.2| ≤ 0 := by simpa using hle
      have h1 : q - b.2 = 0 := abs_nonpos_iff.mp h0
      linarith
    have hfn : frequencyToNote s q ch = b.1 := by rw [frequencyToNote, hb]
    constructor
    · rw [hfn, hbe.2, hb2]
    · rw [hfn]
      exact bestMapped_tie hb n q hn hq (by rw [hb2])
  · intro h
    have hc : candidates (resolvedTable s ch) = [] := candidates_eq_nil.mpr h
    rw [frequencyToNote, show bestMapped (resolvedTable s ch) q = none by rw [bestMapped, hc]]

/-- Witness for C3: in the initial standard table, querying the exact
pitch of note 60 returns a note mapped at that pitch, no higher
than 60. -/
theorem claim_C3_witness :
    entryAt (resolvedTable initSession none) (frequencyToNote initSession 60 none) =
      .mapped 60 ∧ frequencyToNote initSession 60 none ≤ 60 :=
  (claim_C3 initSession none 60).2.1 60 (by norm_num) (by decide)

/-- C9 counterexample: on a session whose table was fully unmapped by a
Bulk Dump, the note frequencyToNote returns is itself filtered, so the
returned note is not always mapped — the claimed absence of an
exception for tables without mapped entries fails. -/
theorem claim_C9_cex :
    shouldFilterNote sEmpty (frequencyToNote sEmpty 60 none) none = true := by
  have htab : sEmpty.defaultTable = List.replicate 128 NoteEntry.unmapped := by decide
  have hent : entryAt (resolvedTable sEmpty none)
      (frequencyToNote sEmpty 60 none) = NoteEntry.unmapped := by
    rw [show resolvedTable sEmpty none = sEmpty.defaultTable from rfl, htab, entryAt]
    cases hg : (List.replicate 128 NoteEntry.unmapped)[frequencyToNote sEmpty 60 none]? with
    | none => rfl
    | some e =>
      have := List.getElem?_mem hg
      rw [List.eq_of_mem_replicate this]
      rfl
  rw [shouldFilterNote, hent]

/-- C9 (amended): the note returned by frequencyToNote refers to a
mapped entry — shouldFilterNote on it is false — whenever the consulted
table has at least one mapped entry, and likewise the note/channel pair
returned by frequencyToNoteAndChannel whenever some channel-resolved
table has a mapped entry; when no mapped entries exist the functions
fall back to the nearest standard-tuning note, which may be filtered. -/
theorem claim_C9 (s : Session) (q : ℚ) :
    (∀ (ch : Option (Fin 16)) n p, n < 128 →
      entryAt (resolvedTable s ch) n = .mapped p →
      shouldFilterNote s (frequencyToNote s q ch) ch = false) ∧
    (∀ (c₀ : Fin 16) n p, n < 128 →
      entryAt (resolvedTable s (some c₀)) n = .mapped p →
      shouldFilterNote s (frequencyToNoteAndChannel s q).1
        (chanOfInt (frequencyToNoteAndChannel s q).2) = false) := by
  constructor
  · intro ch n p hn hp
    obtain ⟨b, hb⟩ := bestMapped_isSome (q := q) hn hp
    have hbe := (bestMapped_mem hb).2
    rw [frequencyToNote, hb, shouldFilterNote, hbe]
  · intro c₀ n p hn hp
    obtain ⟨b₀, hb₀⟩ := bestMapped_isSome (q := q) hn hp
    have hmem : ((c₀ : ℕ), b₀) ∈ chanCands s q := mem_chanCands.mpr ⟨c₀, rfl, hb₀⟩
    cases hcc : chanCands s q with
    | nil => rw [hcc] at hmem; cases hmem
    | cons c cs =>
      have hfr : frequencyToNoteAndChannel s q =
          ((pickMin (fun d => |q - d.2.2|) c cs).2.1,
            ((pickMin (fun d => |q - d.2.2|) c cs).1 : ℤ)) := by
        rw [frequencyToNoteAndChannel, hcc]
      have hwmem : pickMin (fun d => |q - d.2.2|) c cs ∈ chanCands s q := by
        rw [hcc]
        rcases (pickMin_spec (fun d => |q - d.2.2|) c cs).1 with h1 | h1
        · rw [h1]; exact List.mem_cons_self c cs
        · exact List.mem_cons_of_mem _ h1
      obtain ⟨c', hc'1, hc'2⟩ := mem_chanCands.mp hwmem
      have hbe := (bestMapped_mem hc'2).2
      rw [hfr, hc'1, chanOfInt_natCast, shouldFilterNote, hbe]

/-- Witness for C9 at the initial standard table. -/
theorem claim_C9_witness :
    shouldFilterNote initSession (frequencyToNote initSession 60 none) none = false :=
  (claim_C9 initSession 60).1 none 69 69 (by norm_num) (by decide)

/-- C10: the channel frequencyToNoteAndChannel writes is always in the
range 0-15 — never -1 or any other out-of-range value — including when
no multi-channel tables are in use, in which case the result is exactly
frequencyToNote against the default table together with channel 0. -/
theorem claim_C10 (s : Session) (q : ℚ) :
    0 ≤ (frequencyToNoteAndChannel s q).2 ∧ (frequencyToNoteAndChannel s q).2 ≤ 15 ∧
    ((∀ c : Fin 16, s.channelTables c = none) →
      frequencyToNoteAndChannel s q = (frequencyToNote s q none, 0)) := by
  have hrange : 0 ≤ (frequencyToNoteAndChannel s q).2 ∧
      (frequencyToNoteAndChannel s q).2 ≤ 15 := by
    cases hcc : chanCands s q with
    | nil =>
      have h1 : frequencyToNoteAndChannel s q = (stdNearest q, 0) := by
        rw [frequencyToNoteAndChannel, hcc]
      rw [h1]
      norm_num
    | cons c cs =>
      have hfr : frequencyToNoteAndChannel s q =
          ((pickMin (fun d => |q - d.2.2|) c cs).2.1,
            ((pickMin (fun d => |q - d.2.2|) c cs).1 : ℤ)) := by
        rw [frequencyToNoteAndChannel, hcc]
      have hwmem : pickMin (fun d => |q - d.2.2|) c cs ∈ chanCands s q := by
        rw [hcc]
        rcases (pickMin_spec (fun d => |q - d.2.2|) c cs).1 with h1 | h1
        · rw [h1]; exact List.mem_cons_self c cs
        · exact List.mem_cons_of_mem _ h1
      obtain ⟨c', hc'1, -⟩ := mem_chanCands.mp hwmem
      rw [hfr]
      constructor
      · exact Int.natCast_nonneg _
      · show ((pickMin (fun d => |q - d.2.2|) c cs).1 : ℤ) ≤ 15
        rw [hc'1]
        have := c'.2
        omega
  refine ⟨hrange.1, hrange.2, ?_⟩
  intro hnone
  have hres : ∀ c : Fin 16, resolvedTable s (some c) = s.defaultTable := by
    intro c
    rw [resolvedTable, hnone c]
    rfl
  cases hbm : bestMapped s.defaultTable q with
  | none =>
    have hcc : chanCands s q = [] := by
      rw [chanCands, List.filterMap_eq_nil_iff]
      intro c _
      rw [hres c, hbm]
      rfl
    have h1 : frequencyToNoteAndChannel s q = (stdNearest q, 0) := by
      rw [frequencyToNoteAndChannel, hcc]
    have h2 : frequencyToNote s q none = stdNearest q := by
      rw [frequencyToNote, show resolvedTable s none = s.defaultTable from rfl, hbm]
    rw [h1, h2]
  | some b =>
    have hcc : chanCands s q =
        (List.finRange 16).map (fun c : Fin 16 => (((c : ℕ), b) : ℕ × (ℕ × ℚ))) := by
      rw [chanCands,
        List.filterMap_congr (g := fun c : Fin 16 => some (((c : ℕ), b) : ℕ × (ℕ × ℚ)))
          (fun c _ => by rw [hres c, hbm]; rfl),
        filterMap_some_eq_map]
    have hcc2 : chanCands s q = ((0 : ℕ), b) ::
        List.map (fun c : Fin 16 => (((c : ℕ), b) : ℕ × (ℕ × ℚ)))
          (List.map Fin.succ (List.finRange 15)) := by
      rw [hcc, List.finRange_succ, List.map_cons]
      rfl
    have hpick : pickMin (fun d => |q - d.2.2|) ((0 : ℕ), b)
        (List.map (fun c : Fin 16 => (((c : ℕ), b) : ℕ × (ℕ × ℚ)))
          (List.map Fin.succ (List.finRange 15))) = ((0 : ℕ), b) := by
      apply pickMin_const
      intro d hd
      rw [List.mem_map] at hd
      obtain ⟨c, -, rfl⟩ := hd
      rfl
    have hfr0 : frequencyToNoteAndChannel s q =
        ((pickMin (fun d => |q - d.2.2|) ((0 : ℕ), b)
          (List.map (fun c : Fin 16 => (((c : ℕ), b) : ℕ × (ℕ × ℚ)))
            (List.map Fin.succ (List.finRange 15)))).2.1,
         ((pickMin (fun d => |q - d.2.2|) ((0 : ℕ), b)
          (List.map (fun c : Fin 16 => (((c : ℕ), b) : ℕ × (ℕ × ℚ)))
            (List.map Fin.succ (List.finRange 15)))).1 : ℤ)) := by
      rw [frequencyToNoteAndChannel, hcc2]
    have h2 : frequencyToNote s q none = b.1 := by
      rw [frequencyToNote, show resolvedTable s none = s.defaultTable from rfl, hbm]
    rw [hfr0, hpick, h2]
    rfl

/-- Witness for C10 at the initial session, which has no channel tables
in use. -/
theorem claim_C10_witness :
    frequencyToNoteAndChannel initSession 60 = (frequencyToNote initSession 60 none, 0) :=
  (claim_C10 initSession 60).2.2 (fun _ => rfl)

/-- C7: encoding a tuning table as a Bulk Dump message, decoding and
applying it, and reading the table back reproduces the scale name, the
mapped/unmapped pattern of all 128 notes, and each mapped pitch to
within the 3-byte fixed-point encoding's precision — the error in cents
is below 0.01. The table's mapped pitches must fit the encoding's range
(0 to just under 128 semitones). -/
theorem claim_C7 (s : Session) (dev prog : ℕ) (name : List ℕ) (t : List NoteEntry)
    (hdev : dev < 128) (hprog : prog < 128)
    (hnlen : name.length = 16) (hnb : ∀ b ∈ name, b < 128)
    (htlen : t.length = 128) (hrep : ∀ e ∈ t, Representable e) :
    (parseMidiData s (encodeBulkDump dev prog name t)).scaleName = name ∧
    ∀ n, n < 128 →
      ((entryAt (parseMidiData s (encodeBulkDump dev prog name t)).defaultTable n
          = NoteEntry.unmapped ↔ entryAt t n = NoteEntry.unmapped) ∧
       ∀ p, entryAt t n = NoteEntry.mapped p →
         ∃ p', entryAt (parseMidiData s (encodeBulkDump dev prog name t)).defaultTable n
            = NoteEntry.mapped p' ∧ |100 * (p - p')| < 1 / 100) := by
  have hdec := decode_encodeBulkDump dev prog name t hdev hprog hnlen hnb htlen hrep
  have hps : parseMidiData s (encodeBulkDump dev prog name t) =
      { s with defaultTable := decodeTableAux ((t.map encodeNoteEntry).flatten),
               scaleName := name } := by
    rw [parseMidiData, hdec]
    rfl
  obtain ⟨hlen, hpt⟩ := List.forall₂_iff_get.mp (decodeTableAux_encode t hrep)
  refine ⟨by rw [hps], ?_⟩
  intro n hn
  have hnt : n < t.length := by rw [htlen]; exact hn
  have hnT : n < (decodeTableAux ((t.map encodeNoteEntry).flatten)).length := by
    rw [← hlen]; exact hnt
  have hrel := hpt n hnt hnT
  have het : entryAt t n = t.get ⟨n, hnt⟩ := by
    rw [entryAt, List.getElem?_eq_getElem hnt, Option.getD_some, List.get_eq_getElem]
  have heT : entryAt (decodeTableAux ((t.map encodeNoteEntry).flatten)) n =
      (decodeTableAux ((t.map encodeNoteEntry).flatten)).get ⟨n, hnT⟩ := by
    rw [entryAt, List.getElem?_eq_getElem hnT, Option.getD_some, List.get_eq_getElem]
  have hptab : (parseMidiData s (encodeBulkDump dev prog name t)).defaultTable =
      decodeTableAux ((t.map encodeNoteEntry).flatten) := by
    rw [hps]
  rw [hptab, heT, het]
  constructor
  · rcases hrel with ⟨h1, h2⟩ | ⟨p, p', hp, hp', -, -⟩
    · rw [h1, h2]
    · rw [hp, hp']
      simp
  · intro p hp0
    rcases hrel with ⟨h1, h2⟩ | ⟨p1, p', hp1, hp', hb0, hb1⟩
    · rw [h1] at hp0
      cases hp0
    · rw [hp1] at hp0
      injection hp0 with hpp
      refine ⟨p', hp', ?_⟩
      rw [← hpp, abs_of_nonneg (by linarith)]
      linarith

/-- Witness for C7: the standard table round trips through a Bulk
Dump. -/
theorem claim_C7_witness :
    (parseMidiData initSession
        (encodeBulkDump 0 0 (List.replicate 16 65) stdTable)).scaleName =
      List.replicate 16 65 ∧
    ∀ n, n < 128 →
      ((entryAt (parseMidiData initSession
            (encodeBulkDump 0 0 (List.replicate 16 65) stdTable)).defaultTable n
          = NoteEntry.unmapped ↔ entryAt stdTable n = NoteEntry.unmapped) ∧
       ∀ p, entryAt stdTable n = NoteEntry.mapped p →
         ∃ p', entryAt (parseMidiData initSession
              (encodeBulkDump 0 0 (List.replicate 16 65) stdTable)).defaultTable n
            = NoteEntry.mapped p' ∧ |100 * (p - p')| < 1 / 100) :=
  claim_C7 initSession 0 0 (List.replicate 16 65) stdTable
    (by norm_num) (by norm_num) (by simp) (by decide) (by decide)
    (by
      intro e he
      rw [stdTable] at he
      obtain ⟨n, hn, rfl⟩ := List.mem_map.mp he
      rw [List.mem_range] at hn
      refine ⟨Nat.cast_nonneg n, ?_⟩
      have h127 : (n : ℚ) ≤ 127 := by exact_mod_cast Nat.lt_succ_iff.mp hn
      have : (0 : ℚ) < 16383 / 16384 := by norm_num
      linarith)

/-- C4: flipping any single payload byte of a valid Bulk Dump message —
the device id or any byte of the program id, name or pitch data — to a
different 7-bit value without updating the trailing checksum makes the
decode fail with a checksum mismatch, and parseMidiData leaves the
session unchanged. -/
theorem claim_C4 (s : Session) (dev prog : ℕ) (name pitch : List ℕ) (i v : ℕ)
    (hdev : dev < 128) (hprog : prog < 128)
    (hnlen : name.length = 16) (hnb : ∀ b ∈ name, b < 128)
    (hplen : pitch.length = 384) (hpb : ∀ b ∈ pitch, b < 128)
    (hi : i = 2 ∨ (5 ≤ i ∧ i ≤ 405)) (hv : v < 128)
    (hne : v ≠ (mkBulkMsg dev prog name pitch).getD i 0) :
    decode ((mkBulkMsg dev prog name pitch).set i v) =
      Except.error DecodeError.checksumMismatch ∧
    parseMidiData s ((mkBulkMsg dev prog name pitch).set i v) = s := by
  have hRlen : (prog :: (name ++ pitch)).length = 401 := by
    rw [List.length_cons, List.length_append, hnlen, hplen]
  have hRb : ∀ b ∈ prog :: (name ++ pitch), b < 128 := by
    intro x hx
    simp only [List.mem_cons, List.mem_append] at hx
    rcases hx with rfl | hx | hx
    · exact hprog
    · exact hnb x hx
    · exact hpb x hx
  have hBlen : (126 :: dev :: 8 :: 1 :: prog :: (name ++ pitch)).length = 405 := by
    simp only [List.length_cons, hRlen]
  have hBb : ∀ b ∈ 126 :: dev :: 8 :: 1 :: prog :: (name ++ pitch), b < 128 := by
    intro x hx
    simp only [List.mem_cons, List.mem_append] at hx
    rcases hx with rfl | rfl | rfl | rfl | rfl | hx | hx
    · norm_num
    · exact hdev
    · norm_num
    · norm_num
    · exact hprog
    · exact hnb x hx
    · exact hpb x hx
  have hK : xor7 (126 :: dev :: 8 :: 1 :: prog :: (name ++ pitch)) < 128 :=
    Nat.mod_lt _ (by norm_num)
  have hdecerr : decode ((mkBulkMsg dev prog name pitch).set i v) =
      Except.error DecodeError.checksumMismatch := by
    rcases hi with rfl | ⟨hi5, hi405⟩
    · have hset : (mkBulkMsg dev prog name pitch).set 2 v =
          240 :: (126 :: v :: 8 :: 1 :: prog :: (name ++ pitch)) ++
            [xor7 (126 :: dev :: 8 :: 1 :: prog :: (name ++ pitch)), 247] := by
        rw [mkBulkMsg, List.set_append, if_pos (by simp)]
        rfl
      have hget : (mkBulkMsg dev prog name pitch).getD 2 0 = dev := rfl
      rw [hget] at hne
      rw [hset, decode_bulkShape v (prog :: (name ++ pitch)) _ hv hRb hK hRlen]
      rw [if_neg]
      show ¬ xor7 ((126 :: dev :: 8 :: 1 :: prog :: (name ++ pitch)).set 1 v) =
        xor7 (126 :: dev :: 8 :: 1 :: prog :: (name ++ pitch))
      exact xor7_set_ne _ 1 v (by rw [hBlen]; norm_num) hBb hv hne
    · obtain ⟨j, rfl⟩ : ∃ j, i = j + 5 := ⟨i - 5, by omega⟩
      have hj400 : j ≤ 400 := by omega
      have hset : (mkBulkMsg dev prog name pitch).set (j + 5) v =
          240 :: (126 :: dev :: 8 :: 1 :: ((prog :: (name ++ pitch)).set j v)) ++
            [xor7 (126 :: dev :: 8 :: 1 :: prog :: (name ++ pitch)), 247] := by
        rw [mkBulkMsg, List.set_append, if_pos (by simp only [List.length_cons, hRlen]; omega)]
        simp [List.set_cons_succ]
      have hget : (mkBulkMsg dev prog name pitch).getD (j + 5) 0 =
          (126 :: dev :: 8 :: 1 :: prog :: (name ++ pitch)).getD (j + 4) 0 := by
        rw [show mkBulkMsg dev prog name pitch =
          240 :: ((126 :: dev :: 8 :: 1 :: prog :: (name ++ pitch)) ++
            [xor7 (126 :: dev :: 8 :: 1 :: prog :: (name ++ pitch)), 247]) from by
              rw [mkBulkMsg]; simp [List.cons_append]]
        rw [List.getD_cons_succ]
        exact List.getD_append _ _ _ _ (by rw [hBlen]; omega)
      rw [hget] at hne
      have hsb : ∀ b ∈ (prog :: (name ++ pitch)).set j v, b < 128 := by
        intro x hx
        rcases List.mem_or_eq_of_mem_set hx with hx | rfl
        · exact hRb x hx
        · exact hv
      have hsl : ((prog :: (name ++ pitch)).set j v).length = 401 := by
        rw [List.length_set, hRlen]
      rw [hset, decode_bulkShape dev ((prog :: (name ++ pitch)).set j v) _ hdev hsb hK hsl]
      rw [if_neg]
      show ¬ xor7 ((126 :: dev :: 8 :: 1 :: prog :: (name ++ pitch)).set (j + 4) v) =
        xor7 (126 :: dev :: 8 :: 1 :: prog :: (name ++ pitch))
      exact xor7_set_ne _ (j + 4) v (by rw [hBlen]; omega) hBb hv hne
  exact ⟨hdecerr, by rw [parseMidiData, hdecerr]⟩

/-- Witness for C4: flipping the program-id byte of a concrete valid
Bulk Dump from 0 to 1. -/
theorem claim_C4_witness :
    decode ((mkBulkMsg 0 0 (List.replicate 16 0) (List.replicate 384 0)).set 5 1) =
      Except.error DecodeError.checksumMismatch ∧
    parseMidiData initSession
      ((mkBulkMsg 0 0 (List.replicate 16 0) (List.replicate 384 0)).set 5 1) = initSession :=
  claim_C4 initSession 0 0 (List.replicate 16 0) (List.replicate 384 0) 5 1
    (by norm_num) (by norm_num) (by simp) (by decide) (by simp) (by decide)
    (Or.inr (by omega)) (by norm_num) (by decide)

end MTS
